import Mathlib

/-!
Shallow embedding of `src/lib/tree.js` (mongoose-reparenting-tree): a
materialized-path tree plugin.  JavaScript strings are modelled as lists of
characters (`Str`), a document collection as a `List Doc`, and the mongoose
pre-save / pre-remove hooks as pure functions from a document and a store to
a new store (`Except` for the fallible save path).
-/

set_option autoImplicit false

namespace MPTree

/-- A JavaScript string, modelled as its list of characters. -/
abbrev Str := List Char

/-- One stored document, restricted to the fields the plugin adds and reads:
`_id` (the store-assigned identifier, here its string form), `parent`
(optional reference to another document's `_id`; `none` models
null/undefined, i.e. a root) and `path` (the materialized path; `[]` models
an absent/empty path). -/
structure Doc where
  _id : Str
  parent : Option Str
  path : Str
  deriving Repr, DecidableEq

/-- `l₁.isPrefixOf l₂` models the anchored regex `^prefix` filter on `path`
used at tree.js:64, tree.js:95 and tree.js:144 (the prefix is a literal:
ids contain no regex metacharacters). -/
def strStartsWith (pre s : Str) : Bool :=
  pre.isPrefixOf s

/-- Unanchored substring test: models the regex filter without `^` used by
the pre-remove cascade at tree.js:113. -/
def containsSubstr (pat : Str) : Str → Bool
  | [] => strStartsWith pat []
  | c :: cs => strStartsWith pat (c :: cs) || containsSubstr pat cs

/-- JavaScript `s.replace(pat, '')` with a string pattern replaces only the
first occurrence; `repl` generalises the (here always empty) replacement.
Used by the pre-remove path splice at tree.js:117. -/
def replaceFirst (pat repl : Str) : Str → Str
  | [] => if strStartsWith pat [] then repl else []
  | c :: cs =>
    if strStartsWith pat (c :: cs) then repl ++ (c :: cs).drop pat.length
    else c :: replaceFirst pat repl cs

/-- The descendant path rewrite run by `preSave` when the parent changed
(tree.js:64-73): every record whose `path` starts with
`previousPath + pathSeparator` gets
`path := self.path + path.substr(previousPath.length)`.
`oldPath` is `previousPath`, `newPath` is the already recomputed `self.path`. -/
def cascadePaths (sep : Char) (oldPath newPath : Str) (store : List Doc) : List Doc :=
  store.map fun d =>
    if strStartsWith (oldPath ++ [sep]) d.path
    then { d with path := newPath ++ d.path.drop oldPath.length }
    else d

/-- The one failure the pre-save hook can produce in this embedding: the
`parent` id resolves to no record.  In the source there is no named error
class; the save aborts because the `findOne` callback dereferences the
missing document (`doc.path` on tree.js:60), which the spec's taxonomy
calls `BrokenReferenceError`. -/
inductive SaveErr where
  | brokenReference
  deriving Repr, DecidableEq

instance {ε α : Type} [DecidableEq ε] [DecidableEq α] : DecidableEq (Except ε α)
  | .error e, .error f =>
    if h : e = f then .isTrue (by rw [h])
    else .isFalse (fun hc => h (Except.error.inj hc))
  | .error _, .ok _ => .isFalse Except.noConfusion
  | .ok _, .error _ => .isFalse Except.noConfusion
  | .ok a, .ok b =>
    if h : a = b then .isTrue (by rw [h])
    else .isFalse (fun hc => h (Except.ok.inj hc))

/-- The pre-save hook (tree.js:46-84).  Inputs mirror the mongoose state:
`isNew` (fresh document) and `isParentChange` (`this.isModified('parent')`).
Returns the document as it will be committed together with the store after
the descendant cascade (the cascade runs against the store before the
document's own row is written, exactly as in the hook). -/
def preSave (sep : Char) (doc : Doc) (isNew isParentChange : Bool)
    (store : List Doc) : Except SaveErr (Doc × List Doc) :=
  if isNew || isParentChange then
    match doc.parent with
    | none => .ok ({ doc with path := doc._id }, store)
    | some pid =>
      match store.find? (fun d => d._id == pid) with
      | none => .error .brokenReference
      | some pdoc =>
        let previousPath := doc.path
        let doc1 := { doc with path := pdoc.path ++ sep :: doc._id }
        if isParentChange then
          .ok (doc1, cascadePaths sep previousPath doc1.path store)
        else
          .ok (doc1, store)
  else
    .ok (doc, store)

/-- Commit of the saved document itself, performed by mongoose after the
pre-save middleware: insert for a new document, point replace otherwise. -/
def commit (doc : Doc) (isNew : Bool) (store : List Doc) : List Doc :=
  if isNew then store ++ [doc]
  else store.map fun d => if d._id == doc._id then doc else d

/-- A whole `save` call: pre-save hook (including the descendant cascade)
followed by the document's own write. -/
def save (sep : Char) (doc : Doc) (isNew isParentChange : Bool)
    (store : List Doc) : Except SaveErr (List Doc) :=
  match preSave sep doc isNew isParentChange store with
  | .error e => .error e
  | .ok (d, s) => .ok (commit d isNew s)

/- Concrete documents used throughout: the chain A -> B -> C -> D of the
spec's examples, with `#` as the default path separator. -/

def dA : Doc := { _id := ['A'], parent := none, path := ['A'] }
def dB : Doc := { _id := ['B'], parent := some ['A'], path := ['A', '#', 'B'] }
def dC : Doc := { _id := ['C'], parent := some ['B'], path := ['A', '#', 'B', '#', 'C'] }
def dD : Doc :=
  { _id := ['D'], parent := some ['C'], path := ['A', '#', 'B', '#', 'C', '#', 'D'] }

def chainABC : List Doc := [dA, dB, dC]
def chain4 : List Doc := [dA, dB, dC, dD]

/-- The string `'DELETE'` the pre-remove hook compares the `onDelete`
option against (tree.js:94); the spec calls this policy `DELETE-SUBTREE`.
Any other value (default `'REPARENT'`) selects the re-parenting branch. -/
def strDELETE : Str := ['D', 'E', 'L', 'E', 'T', 'E']

/-- The default of the `onDelete` option (tree.js:18). -/
def strREPARENT : Str := ['R', 'E', 'P', 'A', 'R', 'E', 'N', 'T']

/-- Per-record effect of the first pre-remove sweep (`streamOnData`,
tree.js:106-110): a record whose `parent` equals the removed document's
`_id` gets `parent := this.parent` (the removed document's own parent);
every other record is untouched.  The sweep's filter is
`{ parent: previousParent }`. -/
def streamOnData (rm : Doc) (d : Doc) : Doc :=
  if d.parent == some rm._id then { d with parent := rm.parent } else d

/-- Per-record effect of the second pre-remove sweep (`subStreamOnData`,
tree.js:116-120): a record whose `path` contains `this._id + pathSeparator`
anywhere (the regex at tree.js:113 is unanchored) gets that one segment
spliced out via `path.replace(this._id + pathSeparator, '')`; every other
record is untouched. -/
def subStreamOnData (sep : Char) (rm : Doc) (d : Doc) : Doc :=
  if containsSubstr (rm._id ++ [sep]) d.path
  then { d with path := replaceFirst (rm._id ++ [sep]) [] d.path }
  else d

/-- The REPARENT branch of the pre-remove hook (tree.js:97-127): the
parent-reassignment sweep over the store, then the path-splice sweep. -/
def preRemoveReparent (sep : Char) (doc : Doc) (store : List Doc) : List Doc :=
  (store.map (streamOnData doc)).map (subStreamOnData sep doc)

/-- The pre-remove hook (tree.js:91-130): no-op when `path` is absent;
under `onDelete == 'DELETE'` one filtered bulk delete of every record whose
`path` starts with `this.path + pathSeparator`; otherwise the REPARENT
cascade. -/
def preRemove (sep : Char) (onDelete : Str) (doc : Doc) (store : List Doc) : List Doc :=
  if doc.path = [] then store
  else if onDelete == strDELETE then
    store.filter fun d => !strStartsWith (doc.path ++ [sep]) d.path
  else preRemoveReparent sep doc store

/-- A whole `remove` call: the pre-remove hook, then mongoose deletes the
document's own row. -/
def removeDoc (sep : Char) (onDelete : Str) (doc : Doc) (store : List Doc) : List Doc :=
  (preRemove sep onDelete doc store).filter fun d => !(d._id == doc._id)

/-- `getChildren` (tree.js:139-146): with `recursive` the filter is the
anchored path prefix `self.path + pathSeparator`, otherwise
`parent == this._id`.  (The JavaScript argument shuffle that lets the
callback stand in the `recursive` position is calling-convention plumbing
and is not modelled.) -/
def getChildren (sep : Char) (store : List Doc) (self : Doc) (recursive : Bool) : List Doc :=
  if recursive then store.filter fun d => strStartsWith (self.path ++ [sep]) d.path
  else store.filter fun d => d.parent == some self._id

/-- JavaScript `path.split(sep)` for a single-character separator:
`splitSep sep s` is the list of separator-delimited segments (an empty
string splits to one empty segment, as in JavaScript). -/
def splitSep (sep : Char) : Str → List Str
  | [] => [[]]
  | c :: cs =>
    if c = sep then [] :: splitSep sep cs
    else
      match splitSep sep cs with
      | [] => [[c]]
      | s :: rest => (c :: s) :: rest

/-- The ancestor id list built by `getAncestors` (tree.js:165-170):
`this.path.split(pathSeparator)` with the last element popped when a path
is present, `[]` otherwise. -/
def ancestorIds (sep : Char) (self : Doc) : List Str :=
  if self.path = [] then [] else (splitSep sep self.path).dropLast

/-- `getAncestors` (tree.js:164-173): fetch by id-set membership,
`find({ _id: { $in: ids } })` — the store enumerates matches in its own
order. -/
def getAncestors (sep : Char) (store : List Doc) (self : Doc) : List Doc :=
  store.filter fun d => (ancestorIds sep self).contains d._id

/-- The `level` virtual (tree.js:178-180):
`this.path ? this.path.split(pathSeparator).length : 0`. -/
def level (sep : Char) (d : Doc) : Nat :=
  if d.path = [] then 0 else (splitSep sep d.path).length

/-- `true` iff the ids in the list are pairwise distinct. -/
def distinctIds : List Str → Bool
  | [] => true
  | x :: xs => !(xs.contains x) && distinctIds xs

/-- Modelled from the spec: one node of a "valid tree".  Its id is
non-empty and free of the separator (the separator "must not appear inside
any id's string form"), a root's path is its own id, and a non-root's path
is its parent's path plus separator plus its own id (§3's path invariant,
the state the plugin's hooks establish). -/
def validNodeB (sep : Char) (store : List Doc) (d : Doc) : Bool :=
  !d._id.isEmpty && !(d._id.contains sep) &&
    (match d.parent with
     | none => d.path == d._id
     | some pid => store.any fun p => p._id == pid && d.path == p.path ++ sep :: d._id)

/-- Modelled from the spec: a "valid tree" is a store with pairwise
distinct ids in which every node is valid. -/
def validTreeB (sep : Char) (store : List Doc) : Bool :=
  distinctIds (store.map Doc._id) && store.all (validNodeB sep store)

/- The JavaScript values the `parent` setter (tree.js:29-31) can receive,
and the setter itself.  `vOid i` is an ObjectId instance (an object with no
`_id` property of its own), `vDoc i` a document object whose `_id` is the
ObjectId `i` (always truthy), `vObjNoId` any other object with an
absent-or-falsy `_id`. -/

inductive JsVal where
  | vNull
  | vUndefined
  | vStr (s : Str)
  | vOid (i : Str)
  | vDoc (i : Str)
  | vObjNoId
  deriving Repr, DecidableEq

inductive JsErr where
  | typeError
  deriving Repr, DecidableEq

/-- `typeof(val) === "object"` — true for `null` as well. -/
def typeofIsObject : JsVal → Bool
  | .vNull | .vOid _ | .vDoc _ | .vObjNoId => true
  | .vStr _ | .vUndefined => false

/-- Property access `val._id`: throws a TypeError on `null`/`undefined`,
yields `undefined` where the property is absent. -/
def idProp : JsVal → Except JsErr JsVal
  | .vNull => .error .typeError
  | .vUndefined => .error .typeError
  | .vStr _ => .ok .vUndefined
  | .vOid _ => .ok .vUndefined
  | .vDoc i => .ok (.vOid i)
  | .vObjNoId => .ok .vUndefined

/-- JavaScript truthiness of the values above (empty string is falsy). -/
def truthy : JsVal → Bool
  | .vNull | .vUndefined => false
  | .vStr s => !s.isEmpty
  | .vOid _ | .vDoc _ | .vObjNoId => true

/-- The `parent` field setter added by the plugin (tree.js:29-31):
`(typeof(val) === "object" && val._id) ? val._id : val`. -/
def parentSet (val : JsVal) : Except JsErr JsVal :=
  if typeofIsObject val then
    match idProp val with
    | .error e => .error e
    | .ok f => if truthy f then .ok f else .ok val
  else .ok val

/- Further concrete documents: the id-prefix pair "1"/"12" of the
prefix-boundary guard, and a store holding the A -> B -> C -> D chain in a
permuted enumeration order. -/

def n1 : Doc := { _id := ['1'], parent := none, path := ['1'] }
def n12 : Doc := { _id := ['1', '2'], parent := none, path := ['1', '2'] }
def store12 : List Doc := [n1, n12]

def storePerm : List Doc := [dA, dC, dB, dD]

/-- A document whose `parent` id resolves to nothing in `chainABC`. -/
def dX : Doc := { _id := ['X'], parent := some ['Z'], path := [] }

/-! ### Helper lemmas -/

theorem strStartsWith_iff {pre s : Str} : strStartsWith pre s = true ↔ pre <+: s := by
  simp [strStartsWith]

theorem prefix_drop_append {p s : Str} (h : p <+: s) : p ++ s.drop p.length = s :=
  List.prefix_iff_eq_append.mp h

theorem splitSep_ne_nil (sep : Char) (l : Str) : splitSep sep l ≠ [] := by
  cases l with
  | nil => simp [splitSep]
  | cons c cs =>
    simp only [splitSep]
    split
    · simp
    · split <;> simp

theorem splitSep_cons_ne (sep c : Char) (cs : Str) (hc : ¬ c = sep) :
    splitSep sep (c :: cs) =
      match splitSep sep cs with
      | [] => [[c]]
      | s :: rest => (c :: s) :: rest := by
  simp [splitSep, if_neg hc]

theorem splitSep_append (sep : Char) (a b : Str) :
    splitSep sep (a ++ sep :: b) = splitSep sep a ++ splitSep sep b := by
  induction a with
  | nil => simp [splitSep]
  | cons c cs ih =>
    by_cases hc : c = sep
    · subst hc
      simp [splitSep, ih]
    · simp only [List.cons_append]
      rw [splitSep_cons_ne sep c _ hc, splitSep_cons_ne sep c cs hc, ih]
      cases hcs : splitSep sep cs with
      | nil => exact absurd hcs (splitSep_ne_nil sep cs)
      | cons s rest => simp

theorem splitSep_no_sep (sep : Char) (l : Str) (h : sep ∉ l) : splitSep sep l = [l] := by
  induction l with
  | nil => rfl
  | cons c cs ih =>
    have hc : ¬ c = sep := fun e => h (e ▸ List.mem_cons_self c cs)
    have hcs : sep ∉ cs := fun m => h (List.mem_cons_of_mem c m)
    simp only [splitSep, if_neg hc, ih hcs]

theorem replaceFirst_of_not_contains (pat repl : Str) :
    ∀ s : Str, containsSubstr pat s = false → replaceFirst pat repl s = s := by
  intro s
  induction s with
  | nil =>
    intro h
    simp only [containsSubstr] at h
    simp [replaceFirst, h]
  | cons c cs ih =>
    intro h
    simp only [containsSubstr, Bool.or_eq_false_iff] at h
    simp [replaceFirst, h.1, ih h.2]

theorem distinctIds_inj :
    ∀ l : List Doc, distinctIds (l.map Doc._id) = true →
      ∀ a ∈ l, ∀ b ∈ l, a._id = b._id → a = b := by
  intro l
  induction l with
  | nil =>
    intro _ a ha
    exact absurd ha (List.not_mem_nil a)
  | cons x xs ih =>
    intro h a ha b hb hab
    simp only [List.map_cons, distinctIds, Bool.and_eq_true, Bool.not_eq_true'] at h
    obtain ⟨h1, h2⟩ := h
    simp [List.contains] at h1
    rcases List.mem_cons.mp ha with rfl | ha' <;> rcases List.mem_cons.mp hb with rfl | hb'
    · rfl
    · exact absurd hab.symm (h1 b hb')
    · exact absurd hab (h1 a ha')
    · exact ih h2 a ha' b hb' hab

theorem streamOnData_id (rm d : Doc) : (streamOnData rm d)._id = d._id := by
  unfold streamOnData
  split <;> rfl

theorem streamOnData_path (rm d : Doc) : (streamOnData rm d).path = d.path := by
  unfold streamOnData
  split <;> rfl

theorem streamOnData_parent_of_child (rm d : Doc) (h : d.parent = some rm._id) :
    (streamOnData rm d).parent = rm.parent := by
  unfold streamOnData
  rw [if_pos (by simp [h])]

theorem subStreamOnData_id (sep : Char) (rm d : Doc) :
    (subStreamOnData sep rm d)._id = d._id := by
  unfold subStreamOnData
  split <;> rfl

theorem subStreamOnData_parent (sep : Char) (rm d : Doc) :
    (subStreamOnData sep rm d).parent = d.parent := by
  unfold subStreamOnData
  split <;> rfl

theorem subStreamOnData_path (sep : Char) (rm d : Doc) :
    (subStreamOnData sep rm d).path = replaceFirst (rm._id ++ [sep]) [] d.path := by
  unfold subStreamOnData
  split
  · rfl
  · next h => exact (replaceFirst_of_not_contains _ [] d.path (by simpa using h)).symm

theorem validTreeB_parts {sep : Char} {store : List Doc}
    (hv : validTreeB sep store = true) :
    (∀ a ∈ store, ∀ b ∈ store, a._id = b._id → a = b) ∧
      ∀ d ∈ store, validNodeB sep store d = true := by
  simp only [validTreeB, Bool.and_eq_true, List.all_eq_true] at hv
  exact ⟨distinctIds_inj store hv.1, hv.2⟩

theorem validNodeB_unpack {sep : Char} {store : List Doc} {d : Doc}
    (h : validNodeB sep store d = true) :
    d._id ≠ [] ∧ sep ∉ d._id ∧
      (d.parent = none → d.path = d._id) ∧
      ∀ pid, d.parent = some pid →
        ∃ p ∈ store, p._id = pid ∧ d.path = p.path ++ sep :: d._id := by
  unfold validNodeB at h
  cases hpar : d.parent with
  | none =>
    rw [hpar] at h
    simp at h
    refine ⟨h.1.1, h.1.2, fun _ => h.2, ?_⟩
    intro pid hp
    exact Option.noConfusion hp
  | some pid0 =>
    rw [hpar] at h
    simp at h
    obtain ⟨⟨hid1, hid2⟩, p, hp, hpid, hpath⟩ := h
    refine ⟨hid1, hid2, ?_, ?_⟩
    · intro hn
      exact Option.noConfusion hn
    · intro pid hpd
      obtain rfl : pid0 = pid := Option.some.inj hpd
      exact ⟨p, hp, hpid, hpath⟩

theorem validTreeB_path_ne_nil {sep : Char} {store : List Doc}
    (hv : validTreeB sep store = true) :
    ∀ d ∈ store, d.path ≠ [] := by
  intro d hd
  have h := validNodeB_unpack ((validTreeB_parts hv).2 d hd)
  cases hpar : d.parent with
  | none =>
    rw [h.2.2.1 hpar]
    exact h.1
  | some pid =>
    obtain ⟨p, _, _, hpath⟩ := h.2.2.2 pid hpar
    simp [hpath]

/-! ### Claim theorems -/

/-- C9: the descendant path cascade is idempotent — with identical old and
new prefixes, every matched record's recomputed path equals its current
path, so the cascade changes nothing (this holds for every store, in
particular for an already-consistent tree). -/
theorem cascadePaths_idempotent (sep : Char) (p : Str) (store : List Doc) :
    cascadePaths sep p p store = store := by
  unfold cascadePaths
  have hf : ∀ d ∈ store,
      (if strStartsWith (p ++ [sep]) d.path
       then { d with path := p ++ d.path.drop p.length }
       else d) = d := by
    intro d _
    by_cases hs : strStartsWith (p ++ [sep]) d.path
    · have hpre : p <+: d.path :=
        (List.prefix_append p [sep]).trans (strStartsWith_iff.mp hs)
      rw [if_pos hs, prefix_drop_append hpre]
    · rw [if_neg hs]
  rw [List.map_congr_left hf]
  exact List.map_id' store

/-- C1 (code bug evaluation): re-parenting the pre-existing node B of the
tree A -> B -> C to the root (`parent := none`) rewrites B's own path to
`"B"` but returns without any descendant cascade — the saved store keeps
C's path at `"A#B#C"` instead of the claimed `"B#C"`. -/
theorem save_rootReparent_skipsCascade :
    save '#' { dB with parent := none } false true chainABC =
      .ok [dA, { _id := ['B'], parent := none, path := ['B'] }, dC] ∧
    dC.path = ['A', '#', 'B', '#', 'C'] ∧
    (['A', '#', 'B', '#', 'C'] : Str) ≠ ['B', '#', 'C'] := by
  refine ⟨by decide, by decide, by decide⟩

/-- C10 counterexample: assigning `null` to `parent` is not a value
"stored unchanged" — `typeof null === "object"` holds, so the setter
dereferences `null._id` and throws a TypeError. -/
theorem parentSet_null_throws :
    parentSet .vNull = .error .typeError ∧
      parentSet .vNull ≠ .ok .vNull := by
  refine ⟨rfl, by decide⟩

/-- C10 (amended): for every non-null assigned value the setter behaves as
claimed — an object carrying a (truthy) `_id` is replaced by that `_id`
(so assigning a whole parent document is equivalent to assigning its id),
and every other non-null value is stored unchanged; `null` itself throws. -/
theorem parentSet_nonNull :
    (∀ i : Str, parentSet (.vDoc i) = .ok (.vOid i)) ∧
    (∀ i : Str, parentSet (.vOid i) = .ok (.vOid i)) ∧
    (∀ s : Str, parentSet (.vStr s) = .ok (.vStr s)) ∧
    parentSet .vUndefined = .ok .vUndefined ∧
    parentSet .vObjNoId = .ok .vObjNoId ∧
    parentSet .vNull = .error .typeError :=
  ⟨fun _ => rfl, fun _ => rfl, fun _ => rfl, rfl, rfl, rfl⟩

/-- C8 counterexample: `getAncestors` fetches by id-set membership, so its
order is the store's enumeration order.  On the valid tree A -> B -> C -> D
stored in the order [A, C, B, D], `getAncestors` on D returns [A, C, B],
which is not the root-to-parent order [A, B, C]. -/
theorem getAncestors_not_chain_ordered :
    validTreeB '#' storePerm = true ∧
    getAncestors '#' storePerm dD = [dA, dC, dB] ∧
    getAncestors '#' storePerm dD ≠ [dA, dB, dC] := by
  refine ⟨by decide, by decide, by decide⟩

/-- C8 (amended): `getAncestors` returns exactly the records whose ids are
the segments of the node's path excluding the last (its own id), in store
enumeration order — root-to-parent order is not guaranteed; on D in the
chain stored in the order [A, B, C, D] it does return [A, B, C]. -/
theorem getAncestors_members :
    (∀ (sep : Char) (store : List Doc) (self d : Doc),
        d ∈ getAncestors sep store self ↔
          d ∈ store ∧ d._id ∈ ancestorIds sep self) ∧
    getAncestors '#' chain4 dD = [dA, dB, dC] := by
  constructor
  · intro sep store self d
    simp [getAncestors, List.mem_filter, List.contains]
  · decide

/-- C2: under the default REPARENT on-delete policy, removing a node sets
every direct child's `parent` to the removed node's own parent and splices
the removed node's single segment (`_id` plus separator) out of every
path containing it; on the chain A -> B -> C -> D, removing B yields
C.parent == A, C.path == "A#C" and D.path == "A#C#D". -/
theorem preRemove_reparent_behaviour :
    (∀ (sep : Char) (rm : Doc) (store : List Doc) (d : Doc),
        d ∈ store → d.parent = some rm._id →
          ∃ d' ∈ preRemoveReparent sep rm store,
            d'._id = d._id ∧ d'.parent = rm.parent) ∧
    (∀ (sep : Char) (rm : Doc) (store : List Doc) (d : Doc),
        d ∈ store →
          ∃ d' ∈ preRemoveReparent sep rm store,
            d'._id = d._id ∧
              d'.path = replaceFirst (rm._id ++ [sep]) [] d.path) ∧
    removeDoc '#' strREPARENT dB chain4 =
      [dA, { _id := ['C'], parent := some ['A'], path := ['A', '#', 'C'] },
        { _id := ['D'], parent := some ['C'], path := ['A', '#', 'C', '#', 'D'] }] := by
  refine ⟨?_, ?_, by decide⟩
  · intro sep rm store d hd hpar
    refine ⟨subStreamOnData sep rm (streamOnData rm d),
      List.mem_map_of_mem _ (List.mem_map_of_mem _ hd), ?_, ?_⟩
    · rw [subStreamOnData_id, streamOnData_id]
    · rw [subStreamOnData_parent, streamOnData_parent_of_child rm d hpar]
  · intro sep rm store d hd
    refine ⟨subStreamOnData sep rm (streamOnData rm d),
      List.mem_map_of_mem _ (List.mem_map_of_mem _ hd), ?_, ?_⟩
    · rw [subStreamOnData_id, streamOnData_id]
    · rw [subStreamOnData_path, streamOnData_path]

/-- C2 witness: on the concrete chain, the direct child C of the removed
node B ends up re-parented to B's own parent A. -/
theorem preRemove_reparent_behaviour_w :
    ∃ d' ∈ preRemoveReparent '#' dB chain4,
      d'._id = dC._id ∧ d'.parent = dB.parent :=
  preRemove_reparent_behaviour.1 '#' dB chain4 dC (by decide) (by decide)

/-- C3: under the 'DELETE' policy (the spec's DELETE-SUBTREE), the
pre-remove hook keeps exactly the records whose path does not begin with
the removed node's path plus separator — one filtered bulk delete; on the
chain A -> B -> C -> D, removing B deletes C and D and leaves A untouched. -/
theorem preRemove_delete_exact :
    (∀ (sep : Char) (rm : Doc) (store : List Doc) (d : Doc), rm.path ≠ [] →
        (d ∈ preRemove sep strDELETE rm store ↔
          d ∈ store ∧ strStartsWith (rm.path ++ [sep]) d.path = false)) ∧
    removeDoc '#' strDELETE dB chain4 = [dA] := by
  refine ⟨?_, by decide⟩
  intro sep rm store d hne
  unfold preRemove
  rw [if_neg hne, if_pos (by decide : (strDELETE == strDELETE) = true)]
  simp [List.mem_filter]

/-- C3 witness: on the concrete chain, A survives the subtree delete of B
because its path lacks the `"A#B#"` prefix. -/
theorem preRemove_delete_exact_w :
    dA ∈ preRemove '#' strDELETE dB chain4 ↔
      dA ∈ chain4 ∧ strStartsWith (dB.path ++ ['#']) dA.path = false :=
  preRemove_delete_exact.1 '#' dB chain4 dA (by decide)

/-- C4: saving a new record, or one whose parent changed, whose `parent`
id resolves to no record in the store fails with the broken-reference
error, and the mutation commits no store. -/
theorem save_danglingParent (sep : Char) (doc : Doc) (isNew isParentChange : Bool)
    (store : List Doc) (pid : Str)
    (henter : (isNew || isParentChange) = true)
    (hpid : doc.parent = some pid)
    (hmiss : store.find? (fun d => d._id == pid) = none) :
    save sep doc isNew isParentChange store = .error .brokenReference ∧
      ∀ s' : List Doc, save sep doc isNew isParentChange store ≠ .ok s' := by
  have h1 : save sep doc isNew isParentChange store = .error .brokenReference := by
    simp [save, preSave, henter, hpid, hmiss]
  exact ⟨h1, fun s' hc => by rw [h1] at hc; exact Except.noConfusion hc⟩

/-- C4 witness: saving a new document whose parent id `"Z"` matches
nothing in the store aborts with the broken-reference error. -/
theorem save_danglingParent_w :
    save '#' dX true false chainABC = .error .brokenReference :=
  (save_danglingParent '#' dX true false chainABC ['Z'] (by decide) (by decide)
    (by decide)).1

/-- C5: both descendant filters — the pre-save cascade's and recursive
`getChildren`'s — demand the separator right after the ancestor's path, so
a node whose id merely shares a string prefix (id "12" vs id "1") is never
matched as a descendant. -/
theorem descendant_prefix_boundary :
    (∀ (sep : Char) (store : List Doc) (self d : Doc),
        d ∈ getChildren sep store self true →
          strStartsWith (self.path ++ [sep]) d.path = true) ∧
    (∀ (sep : Char) (oldp newp : Str) (store : List Doc) (d : Doc),
        d ∈ store → strStartsWith (oldp ++ [sep]) d.path = false →
          d ∈ cascadePaths sep oldp newp store) ∧
    getChildren '#' store12 n1 true = [] ∧
    cascadePaths '#' ['1'] ['9'] store12 = store12 := by
  refine ⟨?_, ?_, by decide, by decide⟩
  · intro sep store self d hd
    have h : d ∈ store ∧ strStartsWith (self.path ++ [sep]) d.path = true := by
      simpa [getChildren, List.mem_filter] using hd
    exact h.2
  · intro sep oldp newp store d hd hnp
    have hfix : (if strStartsWith (oldp ++ [sep]) d.path
        then { d with path := newp ++ d.path.drop oldp.length } else d) = d := by
      simp [hnp]
    exact hfix ▸ List.mem_map_of_mem _ hd

/-- C5 witness: B, a member of recursive `getChildren` of A on the chain,
indeed carries A's path followed by the separator as a path prefix. -/
theorem descendant_prefix_boundary_w :
    strStartsWith (dA.path ++ ['#']) dB.path = true :=
  descendant_prefix_boundary.1 '#' chain4 dA dB (by decide)

/-- C6: on a valid tree the `level` virtual (segment count of `path`) of a
node is 1 + the `level` of its parent, a root has `level` 1, and a node
with an absent/empty path has `level` 0. -/
theorem level_depth_invariant (sep : Char) (store : List Doc)
    (hv : validTreeB sep store = true) :
    (∀ d ∈ store, ∀ p ∈ store, d.parent = some p._id →
        level sep d = level sep p + 1) ∧
    (∀ d ∈ store, d.parent = none → level sep d = 1) ∧
    (∀ d : Doc, d.path = [] → level sep d = 0) := by
  obtain ⟨hinj, hval⟩ := validTreeB_parts hv
  refine ⟨?_, ?_, ?_⟩
  · intro d hd p hp hpar
    have h := validNodeB_unpack (hval d hd)
    obtain ⟨q, hq, hqid, hpath⟩ := h.2.2.2 p._id hpar
    obtain rfl : q = p := hinj q hq p hp hqid
    have hpne : q.path ≠ [] := validTreeB_path_ne_nil hv q hq
    have hdne : d.path ≠ [] := by simp [hpath]
    simp only [level]
    rw [if_neg hdne, if_neg hpne, hpath, splitSep_append, List.length_append,
      splitSep_no_sep sep d._id h.2.1]
    rfl
  · intro d hd hpar
    have h := validNodeB_unpack (hval d hd)
    have hpath := h.2.2.1 hpar
    have hdne : d.path ≠ [] := by rw [hpath]; exact h.1
    simp only [level]
    rw [if_neg hdne, hpath, splitSep_no_sep sep d._id h.2.1]
    rfl
  · intro d hp
    simp [level, hp]

/-- C6 witness: on the valid chain A -> B -> C -> D, B (a child of the
root A) has `level` 2 = `level` of A + 1. -/
theorem level_depth_invariant_w : level '#' dB = level '#' dA + 1 :=
  (level_depth_invariant '#' chain4 (by decide)).1 dB (by decide) dA (by decide)
    (by decide)

/-- C7: `getChildren` with `recursive` false returns exactly the records
whose `parent` is the node's id, with `recursive` true exactly those whose
path starts with the node's path plus separator; on the chain,
`getChildren` of A returns {B, C, D} recursively and {B} directly. -/
theorem getChildren_filters :
    (∀ (sep : Char) (store : List Doc) (self d : Doc),
        d ∈ getChildren sep store self false ↔
          d ∈ store ∧ d.parent = some self._id) ∧
    (∀ (sep : Char) (store : List Doc) (self d : Doc),
        d ∈ getChildren sep store self true ↔
          d ∈ store ∧ strStartsWith (self.path ++ [sep]) d.path = true) ∧
    getChildren '#' chain4 dA true = [dB, dC, dD] ∧
    getChildren '#' chain4 dA false = [dB] := by
  refine ⟨?_, ?_, by decide, by decide⟩
  · intro sep store self d
    simp [getChildren, List.mem_filter]
  · intro sep store self d
    simp [getChildren, List.mem_filter]

/-- C7 witness: the non-recursive filter admits B as a child of A on the
chain. -/
theorem getChildren_filters_w : dB ∈ getChildren '#' chain4 dA false :=
  (getChildren_filters.1 '#' chain4 dA dB).mpr ⟨by decide, by decide⟩

/-- C8 witness (amended form): A is among the ancestors `getAncestors`
returns for D on the chain. -/
theorem getAncestors_members_w : dA ∈ getAncestors '#' chain4 dD :=
  (getAncestors_members.1 '#' chain4 dD dA).mpr ⟨by decide, by decide⟩

/-- C9 witness: running the cascade with old prefix = new prefix = "A"
over the concrete chain changes nothing. -/
theorem cascadePaths_idempotent_w :
    cascadePaths '#' ['A'] ['A'] chain4 = chain4 :=
  cascadePaths_idempotent '#' ['A'] chain4

/-- C10 witness (amended form): assigning a document object whose `_id` is
"A" stores the ObjectId "A". -/
theorem parentSet_nonNull_w : parentSet (.vDoc ['A']) = .ok (.vOid ['A']) :=
  parentSet_nonNull.1 ['A']

end MPTree
